import Mathlib

/-!
Shallow embedding of the researcher-lookup and mail tools of the
`research_connect` repository (files `researcher_agent.py` and
`researcher_agent_exp.py`), together with proofs that settle the frozen
claims about its specification.

The Python data (search-result records and author mentions are JSON-style
dictionaries whose values, in the fields this code touches, are strings or
`None`) is modelled by `PyVal`, `Author` and `Paper`.  External collaborator
calls (the SerpAPI search, the Gemini model, the SMTP transport, the
interactive password prompt) are modelled as explicit inputs: the fetched
result list, the model's response text, a per-recipient success predicate
and the prompted password, plus a boolean recording whether the dependent
network call was attempted.
-/

/-- A Python value as it occurs in the dictionaries handled by
`get_top_researchers`: a string or `None`. -/
inductive PyVal where
  | str (s : String)
  | none_
deriving DecidableEq, Repr

/-- An author mention: a Python dict (association list) of field names to
values, as iterated by `author.values()`. -/
abbrev Author := List (String × PyVal)

/-- One search-result record ("paper"): its top-level string fields
(`snippet`, `title`, ...) and the author list found under
`publication_info.authors`. -/
structure Paper where
  fields : List (String × PyVal)
  authors : List Author
deriving DecidableEq, Repr

/-- `d.get(k)`: first binding of `k`, or Python `None` when absent. -/
def pyGet (d : List (String × PyVal)) (k : String) : PyVal :=
  match d with
  | [] => PyVal.none_
  | (k', v) :: t => if k' = k then v else pyGet t k

/-- Python's `str.strip()`: drop leading and trailing whitespace. -/
def pyStrip (s : String) : String :=
  String.mk (((s.data.dropWhile Char.isWhitespace).reverse.dropWhile
    Char.isWhitespace).reverse)

/-- Python truthiness of a value, as a string option: `some s` iff the value
is a non-empty string (used to model the `x or y or None` chain). -/
def truthyStr : PyVal → Option String
  | PyVal.str s => if s = "" then none else some s
  | PyVal.none_ => none

/-- `author.get("link") or author.get("profile") or None`
(line 51 of `get_top_researchers`). -/
def linkOf (a : Author) : Option String :=
  match truthyStr (pyGet a "link") with
  | some s => some s
  | none => truthyStr (pyGet a "profile")

/-- The name normalizer (lines 50-60 of `get_top_researchers`): take
`author.get("name")`; skip when falsy (`None` or empty); strip; skip when
the stripped length is at most 2.  `none` means the mention is rejected. -/
def acceptedName (a : Author) : Option String :=
  match pyGet a "name" with
  | PyVal.none_ => none
  | PyVal.str s =>
    if s = "" then none
    else if (pyStrip s).length ≤ 2 then none
    else some (pyStrip s)

/-! ## Email extraction

`re.findall(r"[A-Za-z0-9._%+-]+@[A-Za-z0-9.-]+\.[A-Za-z]{2,}", text)`:
non-overlapping left-to-right matches of the address pattern, each maximal
under the regex's greedy/backtracking semantics. -/

/-- Character class `[A-Za-z0-9._%+-]` (local part). -/
def isLocalChar (c : Char) : Bool :=
  c.isAlphanum || c = '.' || c = '_' || c = '%' || c = '+' || c = '-'

/-- Character class `[A-Za-z0-9.-]` (domain). -/
def isDomChar (c : Char) : Bool :=
  c.isAlphanum || c = '.' || c = '-'

/-- Given the maximal domain-character run after `@`, pick the largest `j`
such that position `j` holds the final dot and at least two alphabetic
characters follow it (the regex backtracks from the longest `+` match).
Returns the split point and the greedy `[A-Za-z]{2,}` run. -/
def bestSplit (dom : List Char) : Option (Nat × List Char) :=
  (List.range dom.length).reverse.findSome? (fun j =>
    if 1 ≤ j ∧ dom.get? j = some '.' then
      let run := (dom.drop (j+1)).takeWhile Char.isAlpha
      if 2 ≤ run.length then some (j, run) else none
    else none)

/-- Try to match the address pattern at the head of `l`; on success return
the matched substring and the unconsumed remainder. -/
def tryMatch (l : List Char) : Option (String × List Char) :=
  let loc := l.takeWhile isLocalChar
  let r1 := l.dropWhile isLocalChar
  if loc.isEmpty then none
  else
    match r1 with
    | '@' :: r2 =>
      let dom := r2.takeWhile isDomChar
      let r3 := r2.dropWhile isDomChar
      match bestSplit dom with
      | some (j, run) =>
        some (String.mk (loc ++ '@' :: (dom.take j ++ '.' :: run)),
              dom.drop (j + 1 + run.length) ++ r3)
      | none => none
    | _ => none

/-- Left-to-right scan: attempt a match at each position, skipping past a
successful match (findall's non-overlapping semantics).  `fuel` bounds the
recursion; it never runs out when set to the input length. -/
def scanEmails (fuel : Nat) (l : List Char) : List String :=
  match fuel, l with
  | 0, _ => []
  | _, [] => []
  | fuel + 1, c :: rest =>
    match tryMatch (c :: rest) with
    | some (m, after) => m :: scanEmails fuel after
    | none => scanEmails fuel rest

/-- All matches of the address pattern in `s`, in order (with duplicates,
as `re.findall` returns them). -/
def findEmails (s : String) : List String :=
  scanEmails s.length s.data

/-! ## The author aggregator (lines 42-77) -/

/-- The per-author accumulated statistics: `authors_data[name]`. -/
structure AuthorRec where
  count : Nat
  profile : String
  emails : List String
deriving DecidableEq, Repr

/-- Lookup in the `authors_data` mapping (modelled as an association list
in dict insertion order). -/
def findRec (n : String) : List (String × AuthorRec) → Option AuthorRec
  | [] => none
  | (k, r) :: t => if k = n then some r else findRec n t

/-- In-place update of the entry with key `n`, keys and order unchanged. -/
def updateRec (n : String) (f : AuthorRec → AuthorRec) :
    List (String × AuthorRec) → List (String × AuthorRec)
  | [] => []
  | (k, r) :: t => if k = n then (k, f r) :: t else (k, r) :: updateRec n f t

/-- `set.add`: append the address unless already present. -/
def insertEmail (l : List String) (e : String) : List String :=
  if e ∈ l then l else l ++ [e]

/-- Add every address of `es` to the set `l`. -/
def addEmails (l : List String) (es : List String) : List String :=
  es.foldl insertEmail l

/-- Lines 73-77: run the extractor over every string value of the author
dict (`for v in author.values(): if isinstance(v, str): ...`). -/
def authorFieldEmails (a : Author) : List String :=
  (a.map Prod.snd).foldr
    (fun v acc =>
      (match v with
       | PyVal.str s => findEmails s
       | PyVal.none_ => []) ++ acc) []

/-- Lines 69-77: increment the count and add the snippet's addresses and the
author dict's own addresses to the email set. -/
def bumpAuthor (se : List String) (a : Author) (r : AuthorRec) : AuthorRec :=
  { r with
    count := r.count + 1,
    emails := addEmails (addEmails r.emails se) (authorFieldEmails a) }

/-- The entry created on a name's first mention (lines 62-67): count `0`,
the mention's truthy link or the placeholder, an empty email set. -/
def newAuthorRec (a : Author) : AuthorRec :=
  { count := 0,
    profile := (linkOf a).getD "(profile not available)",
    emails := [] }

/-- Lines 49-77: process one author mention against the accumulated mapping.
`se` is the list of addresses already extracted from the record's snippet. -/
def processAuthor (se : List String) (d : List (String × AuthorRec))
    (a : Author) : List (String × AuthorRec) :=
  match acceptedName a with
  | none => d
  | some name =>
    let d' := if (findRec name d).isNone
      then d ++ [(name, newAuthorRec a)]
      else d
    updateRec name (bumpAuthor se a) d'

/-- `paper.get("snippet", "") or ""` (line 45). -/
def snippetOf (p : Paper) : String :=
  match pyGet p.fields "snippet" with
  | PyVal.str s => s
  | PyVal.none_ => ""

/-- Lines 44-77: process one search-result record. -/
def processPaper (d : List (String × AuthorRec)) (p : Paper) :
    List (String × AuthorRec) :=
  p.authors.foldl (processAuthor (findEmails (snippetOf p))) d

/-- The whole aggregation loop: fold all records into `authors_data`. -/
def aggregate (papers : List Paper) : List (String × AuthorRec) :=
  papers.foldl processPaper []

/-! ## Ranking and rendering (lines 79-101) -/

/-- Stable insertion for the descending-by-count sort: the new element goes
before the first element whose count is not larger (so among equal counts,
earlier elements stay first — the semantics of Python's stable
`sorted(..., key=count, reverse=True)`). -/
def insertRanked (x : String × AuthorRec) :
    List (String × AuthorRec) → List (String × AuthorRec)
  | [] => [x]
  | y :: ys => if y.2.count ≤ x.2.count then x :: y :: ys else y :: insertRanked x ys

/-- `sorted(authors_data.items(), key=lambda kv: kv[1]["count"], reverse=True)`. -/
def sortRanked (l : List (String × AuthorRec)) : List (String × AuthorRec) :=
  l.foldr insertRanked []

/-- `ranked = sorted(...)[:top_k]` (line 83). -/
def rankedList (agg : List (String × AuthorRec)) (k : Nat) :
    List (String × AuthorRec) :=
  (sortRanked agg).take k

/-- Stable insertion for Python's ascending `sorted` on strings. -/
def insertStr (s : String) : List String → List String
  | [] => [s]
  | t :: ts => if t < s then t :: insertStr s ts else s :: t :: ts

/-- `sorted(info["emails"])`. -/
def sortStrings (l : List String) : List String :=
  l.foldr insertStr []

/-- `", ".join(sorted(info["emails"])) if info["emails"] else "(not found)"`. -/
def emailsCell (emails : List String) : String :=
  if emails.isEmpty then "(not found)"
  else String.intercalate ", " (sortStrings emails)

/-- The fixed two header lines of the Markdown table (lines 93-94). -/
def headerStr : String :=
  "| Rank | Name | Emails (found) | Profile Link |\n|------|------|----------------|--------------|\n"

/-- The body rows, one per ranked entry, ranks starting at 1 (lines 96-99). -/
def rowsOf (ranked : List (String × AuthorRec)) : List String :=
  ranked.enum.map (fun e =>
    "| " ++ toString (e.1 + 1) ++ " | " ++ e.2.1 ++ " | " ++
    emailsCell e.2.2.emails ++ " | " ++ e.2.2.profile ++ " |\n")

/-- Lines 79-101: the ranker/reporter — "No authors found." on an empty
mapping, otherwise the header plus one row per ranked author. -/
def renderReport (agg : List (String × AuthorRec)) (k : Nat) : String :=
  if agg.isEmpty then "No authors found."
  else headerStr ++ String.join (rowsOf (rankedList agg k))

/-- `get_top_researchers` (lines 19-101).  The external SerpAPI call is
modelled by the `results` input; the second component records whether that
network call was attempted. -/
def get_top_researchers (serpKey : Option String) (results : List Paper)
    (topK : Nat) : String × Bool :=
  if serpKey.getD "" = "" then
    ("ERROR: SERPAPI_KEY not found in environment variables.", false)
  else if results.isEmpty then ("No results found.", true)
  else (renderReport (aggregate results) topK, true)

/-! ## The mail tool (`send_mail`, lines 213-253 of `researcher_agent.py`;
lines 107-149 of `researcher_agent_exp.py`) -/

/-- The hardcoded fallback recipient list of `researcher_agent.py`
(lines 229-231). -/
def defaultReceivers : List String := ["rana.sayak.2001@gmail.com"]

/-- The hardcoded fallback recipient list of `researcher_agent_exp.py`
(lines 123-127). -/
def defaultReceiversExp : List String :=
  ["sayakrana108@gmail.com", "sayak.rana2001@gmail.com", "rana.sayak.2001@gmail.com"]

/-- The default body used when `ans` is empty or whitespace (lines 234-245). -/
def defaultMailBody : String :=
  "\nHi,\n\nThis is an automated message from the Research Connect app.\n\nWe found the top researchers for your requested topic.\nPlease find their details in the attached summary.\n\nBest regards,\nSayak Rana\n"

/-- The per-recipient send loop (lines 249-251): `yag.send` is attempted for
each recipient in order; the transport is modelled by `canSend`; a `false`
result is a raised transport exception, which aborts the loop.  Returns
(delivered recipients, attempted recipients, completed without exception). -/
def sendLoop (canSend : String → Bool) :
    List String → List String × List String × Bool
  | [] => ([], [], true)
  | r :: rs =>
    if canSend r then
      let rest := sendLoop canSend rs
      (r :: rest.1, r :: rest.2.1, rest.2.2)
    else ([], [r], false)

/-- The observable outcome of one `send_mail` call. -/
structure MailResult where
  promptedForPass : Bool
  usedPass : String
  delivered : List String
  attempted : List String
  retval : Option String
deriving DecidableEq, Repr

/-- `send_mail`, parameterised by the hardcoded default recipient list (the
only difference between the two source files).  `envPass` models
`os.environ.get("MAIL_APP_PASS")`; when it is falsy the code prompts
interactively (`getpass.getpass`) — modelled by `promptedPass` — and
proceeds.  `retval = none` models a propagated transport exception. -/
def sendMailWith (defaults : List String) (envPass : Option String)
    (promptedPass : String) (ans subject : String)
    (receivers : Option (List String)) (canSend : String → Bool) : MailResult :=
  let prompted := envPass.getD "" = ""
  let appPass := if prompted then promptedPass else envPass.getD ""
  let recs := match receivers with
    | none => defaults
    | some l => if l.isEmpty then defaults else l
  let _body := if pyStrip ans = "" then defaultMailBody else ans
  let res := sendLoop canSend recs
  { promptedForPass := prompted,
    usedPass := appPass,
    delivered := res.1,
    attempted := res.2.1,
    retval := if res.2.2 then
        some ("Emails sent successfully to: " ++ String.intercalate ", " recs)
      else none }

/-- `send_mail` of `researcher_agent.py`. -/
def send_mail (envPass : Option String) (promptedPass : String)
    (ans subject : String) (receivers : Option (List String))
    (canSend : String → Bool) : MailResult :=
  sendMailWith defaultReceivers envPass promptedPass ans subject receivers canSend

/-- `send_mail` of `researcher_agent_exp.py` (identical but for the default
recipient list). -/
def send_mail_exp (envPass : Option String) (promptedPass : String)
    (ans subject : String) (receivers : Option (List String))
    (canSend : String → Bool) : MailResult :=
  sendMailWith defaultReceiversExp envPass promptedPass ans subject receivers canSend

/-! ## The paper-analysis tool (`analyze_paper`, lines 373-419 of
`researcher_agent.py`) -/

/-- Number of words of Python's `s.split()` (maximal non-whitespace runs). -/
def countWordsAux : List Char → Bool → Nat
  | [], _ => 0
  | c :: t, inWord =>
    if c.isWhitespace then countWordsAux t false
    else (if inWord then 0 else 1) + countWordsAux t true

/-- `len(s.split())`. -/
def wordCount (s : String) : Nat :=
  countWordsAux s.data false

/-- The response clean-up of `analyze_paper` (lines 406-411): strip, remove
quote characters (`re.sub(r'[\x22\x27]', '', ...)`), keep the first line,
strip again. -/
def cleanTopic (resp : String) : String :=
  let t := pyStrip resp
  let t := String.mk (t.data.filter (fun c => !(c = '"' || c = '\'')))
  let t := String.mk (t.data.takeWhile (fun c => c ≠ '\n'))
  pyStrip t

/-- `analyze_paper` (lines 373-419), given the already-extracted PDF text
(the `fitz` extractor is an external collaborator) and, when the model call
happens, its response text.  The second component records whether the model
call was attempted. -/
def analyze_paper (paperText : String) (geminiKey : Option String)
    (modelResp : String) : String × Bool :=
  if paperText = "" then
    ("No readable text found in the uploaded paper.", false)
  else if geminiKey.getD "" = "" then
    ("Error: GEMINI_API_KEY missing.", false)
  else
    let mt := cleanTopic modelResp
    (if mt ≠ "" ∧ 3 < mt.length ∧ wordCount mt ≤ 5 then
        "**Main Research Topic:** " ++ mt
      else "Could not extract a clear topic from the paper.", true)

/-! ## Spec-side observations used to state the claims -/

/-- Count of the author record `n` in the mapping, `0` when absent. -/
def countOf (n : String) (d : List (String × AuthorRec)) : Nat :=
  match findRec n d with
  | some r => r.count
  | none => 0

/-- Email set of the author record `n` in the mapping, `[]` when absent. -/
def emailsOf (n : String) (d : List (String × AuthorRec)) : List String :=
  match findRec n d with
  | some r => r.emails
  | none => []

/-- Number of non-rejected mentions of name `n` inside one record. -/
def mentionsIn (n : String) (p : Paper) : Nat :=
  p.authors.countP (fun a => decide (acceptedName a = some n))

/-- Total number of non-rejected mentions of `n` across the input. -/
def mentionCountsFor (n : String) (papers : List Paper) : Nat :=
  (papers.map (mentionsIn n)).sum

/-- Number of distinct source records carrying at least one non-rejected
mention of `n` (the quantity the claim says `occurrence_count` equals). -/
def recordsMentioning (n : String) (papers : List Paper) : Nat :=
  papers.countP (fun p => p.authors.any (fun a => decide (acceptedName a = some n)))

/-- All author mentions of the input, in processing order. -/
def flatMentions : List Paper → List Author
  | [] => []
  | p :: t => p.authors ++ flatMentions t

/-- The first non-rejected mention of name `n` in the input, if any. -/
def firstMentionOf (n : String) (papers : List Paper) : Option Author :=
  (flatMentions papers).find? (fun a => decide (acceptedName a = some n))

/-- The profile string the first mention of `n` dictates: its truthy
`link`/`profile` value, else the placeholder. -/
def profileFromFirst (n : String) (papers : List Paper) : String :=
  match firstMentionOf n papers with
  | some a => (linkOf a).getD "(profile not available)"
  | none => "(profile not available)"

/-- `a` occurs strictly before `b` in `l` (there is an occurrence of `a`
with an occurrence of `b` somewhere after it). -/
def occursBefore {α : Type} [DecidableEq α] (a b : α) : List α → Bool
  | [] => false
  | x :: t => if x = a ∧ b ∈ t then true else occursBefore a b t

/-! ## Example inputs used by witnesses and counterexamples -/

/-- The two-record "A Smith" scenario of the spec (§8): first record has the
address in its snippet and no link, the second has a link and no snippet. -/
def smithPaper1 : Paper :=
  ⟨[("snippet", PyVal.str "contact: a.smith@uni.edu")],
   [[("name", PyVal.str "A Smith")]]⟩

/-- Second record of the "A Smith" scenario. -/
def smithPaper2 : Paper :=
  ⟨[("snippet", PyVal.str "")],
   [[("name", PyVal.str "A Smith"), ("link", PyVal.str "http://scholar/asmith")]]⟩

/-- The "A Smith" scenario input. -/
def scenarioPapers : List Paper := [smithPaper1, smithPaper2]

/-- One record mentioning the same author twice in its author list. -/
def dupMentionPapers : List Paper :=
  [⟨[], [[("name", PyVal.str "John Doe")], [("name", PyVal.str "John Doe")]]⟩]

/-- One record whose only address sits in its `title` field, not the snippet. -/
def titleEmailPapers : List Paper :=
  [⟨[("title", PyVal.str "see x@y.com for info")], [[("name", PyVal.str "John Doe")]]⟩]

/-- One plain record with a single author and no addresses. -/
def plainPapers : List Paper :=
  [⟨[], [[("name", PyVal.str "John Doe")]]⟩]

/-- One record with two authors, giving two entries with equal counts. -/
def twoAuthorPapers : List Paper :=
  [⟨[], [[("name", PyVal.str "John Doe")], [("name", PyVal.str "Jane Roe")]]⟩]

/-! ## Association-list lemmas -/

theorem findRec_updateRec (n m : String) (f : AuthorRec → AuthorRec) :
    ∀ l, findRec n (updateRec m f l) =
      if n = m then (findRec m l).map f else findRec n l := by
  intro l
  induction l with
  | nil => by_cases h : n = m <;> simp [findRec, updateRec, h]
  | cons kr t ih =>
    obtain ⟨k, r⟩ := kr
    simp only [updateRec]
    by_cases hkm : k = m
    · rw [if_pos hkm]
      by_cases hnm : n = m
      · have hkn : k = n := by rw [hkm, hnm]
        simp [findRec, hkn, hkm, hnm]
      · have hkn : ¬ k = n := fun h => hnm (by rw [← h, hkm])
        simp [findRec, hkn, hnm]
    · rw [if_neg hkm]
      by_cases hkn : k = n
      · have hnm : ¬ n = m := fun h => hkm (by rw [hkn, h])
        simp [findRec, hkn, hnm]
      · simp [findRec, hkn, hkm, ih]

theorem findRec_append_some (n : String) {l₁ : List (String × AuthorRec)}
    (l₂ : List (String × AuthorRec)) {r : AuthorRec}
    (h : findRec n l₁ = some r) : findRec n (l₁ ++ l₂) = some r := by
  induction l₁ with
  | nil => simp [findRec] at h
  | cons kr t ih =>
    obtain ⟨k, v⟩ := kr
    by_cases hk : k = n
    · simp [findRec, hk] at h ⊢; exact h
    · simp [findRec, hk] at h ⊢; exact ih h

theorem findRec_append_none (n : String) {l₁ : List (String × AuthorRec)}
    (l₂ : List (String × AuthorRec)) (h : findRec n l₁ = none) :
    findRec n (l₁ ++ l₂) = findRec n l₂ := by
  induction l₁ with
  | nil => simp
  | cons kr t ih =>
    obtain ⟨k, v⟩ := kr
    by_cases hk : k = n
    · simp [findRec, hk] at h
    · simp [findRec, hk] at h ⊢; exact ih h

theorem keys_updateRec (m : String) (f : AuthorRec → AuthorRec) :
    ∀ l, (updateRec m f l).map Prod.fst = l.map Prod.fst := by
  intro l
  induction l with
  | nil => rfl
  | cons kr t ih =>
    obtain ⟨k, r⟩ := kr
    by_cases hk : k = m <;> simp [updateRec, hk, ih]

theorem findRec_eq_none_iff (n : String) :
    ∀ l : List (String × AuthorRec), findRec n l = none ↔ n ∉ l.map Prod.fst := by
  intro l
  induction l with
  | nil => simp [findRec]
  | cons kr t ih =>
    obtain ⟨k, r⟩ := kr
    by_cases hk : k = n
    · simp [findRec, hk]
    · have hk' : ¬ n = k := fun h => hk h.symm
      simp [findRec, hk, hk', ih]

theorem mem_keys_of_findRec_some {n : String} {l : List (String × AuthorRec)}
    {r : AuthorRec} (h : findRec n l = some r) : n ∈ l.map Prod.fst := by
  by_contra hmem
  rw [← findRec_eq_none_iff] at hmem
  rw [hmem] at h
  exact Option.noConfusion h

/-! ## Counting lemmas (claim C2) -/

theorem countOf_eq_of_findRec {n : String} {d : List (String × AuthorRec)}
    {r : AuthorRec} (h : findRec n d = some r) : countOf n d = r.count := by
  simp [countOf, h]

theorem countOf_eq_zero_of_none {n : String} {d : List (String × AuthorRec)}
    (h : findRec n d = none) : countOf n d = 0 := by
  simp [countOf, h]

/-- The key fact behind the aggregator: after processing one mention the
entry for `n` is, in every case, what lines 62-77 dictate. -/
theorem findRec_processAuthor (se : List String) (a : Author)
    (d : List (String × AuthorRec)) (n : String) :
    findRec n (processAuthor se d a) =
      if acceptedName a = some n then
        some (bumpAuthor se a ((findRec n d).getD (newAuthorRec a)))
      else findRec n d := by
  cases h : acceptedName a with
  | none => simp [processAuthor, h]
  | some m =>
    simp only [processAuthor, h]
    cases hmd : findRec m d with
    | none =>
      simp only [Option.isNone_none, if_true]
      have h1 : findRec m (d ++ [(m, newAuthorRec a)]) = some (newAuthorRec a) := by
        rw [findRec_append_none m _ hmd]; simp [findRec]
      by_cases hnm : n = m
      · have hnd : findRec n d = none := by rw [hnm]; exact hmd
        rw [findRec_updateRec, if_pos hnm, h1, if_pos (by rw [hnm]), hnd]
        rfl
      · have hmn : ¬ m = n := fun hc => hnm hc.symm
        have h2 : findRec n (d ++ [(m, newAuthorRec a)]) = findRec n d := by
          cases hnd : findRec n d with
          | some r => exact findRec_append_some n _ hnd
          | none => rw [findRec_append_none n _ hnd]; simp [findRec, hmn]
        have hms : ¬ (some m = some n) := fun hc => hmn (Option.some.inj hc)
        rw [findRec_updateRec, if_neg hnm, h2, if_neg hms]
    | some r =>
      simp only [Option.isNone_some, Bool.false_eq_true, if_false]
      by_cases hnm : n = m
      · have hnd : findRec n d = some r := by rw [hnm]; exact hmd
        rw [findRec_updateRec, if_pos hnm, hmd, if_pos (by rw [hnm]), hnd]
        rfl
      · have hms : ¬ (some m = some n) :=
          fun hc => hnm (Option.some.inj hc).symm
        rw [findRec_updateRec, if_neg hnm, if_neg hms]

theorem countOf_processAuthor (se : List String) (a : Author)
    (d : List (String × AuthorRec)) (n : String) :
    countOf n (processAuthor se d a) =
      countOf n d + (if acceptedName a = some n then 1 else 0) := by
  by_cases h : acceptedName a = some n
  · rw [countOf_eq_of_findRec (by rw [findRec_processAuthor, if_pos h]),
      if_pos h]
    cases hnd : findRec n d with
    | none => rw [countOf_eq_zero_of_none hnd]; simp [bumpAuthor, newAuthorRec]
    | some r => rw [countOf_eq_of_findRec hnd]; simp [bumpAuthor]
  · rw [if_neg h]
    have := findRec_processAuthor se a d n
    rw [if_neg h] at this
    simp [countOf, this]

theorem countOf_foldl_authors (se : List String) (n : String) :
    ∀ (authors : List Author) (d : List (String × AuthorRec)),
      countOf n (authors.foldl (processAuthor se) d) =
        countOf n d + authors.countP (fun a => decide (acceptedName a = some n)) := by
  intro authors
  induction authors with
  | nil => intro d; simp
  | cons a t ih =>
    intro d
    simp only [List.foldl_cons, List.countP_cons, ih, countOf_processAuthor]
    by_cases h : acceptedName a = some n <;> simp [h] <;> omega

theorem countOf_processPaper (p : Paper) (d : List (String × AuthorRec))
    (n : String) :
    countOf n (processPaper d p) = countOf n d + mentionsIn n p := by
  simp [processPaper, mentionsIn, countOf_foldl_authors]

theorem countOf_foldl_papers (n : String) :
    ∀ (papers : List Paper) (d : List (String × AuthorRec)),
      countOf n (papers.foldl processPaper d) =
        countOf n d + mentionCountsFor n papers := by
  intro papers
  induction papers with
  | nil => intro d; simp [mentionCountsFor]
  | cons p t ih =>
    intro d
    simp only [List.foldl_cons, ih, countOf_processPaper, mentionCountsFor,
      List.map_cons, List.sum_cons]
    omega

theorem countOf_aggregate (papers : List Paper) (n : String) :
    countOf n (aggregate papers) = mentionCountsFor n papers := by
  rw [aggregate, countOf_foldl_papers]
  simp [countOf, findRec]

/-! ## Key-shape lemmas (claims C5 and C8) -/

theorem acceptedName_some_length {a : Author} {n : String}
    (h : acceptedName a = some n) : 2 < n.length := by
  simp only [acceptedName] at h
  split at h
  · exact Option.noConfusion h
  · split at h
    · exact Option.noConfusion h
    · split at h
      · exact Option.noConfusion h
      · rename_i hlen
        rw [← Option.some.inj h]
        omega

theorem keys_processAuthor (se : List String) (a : Author)
    (d : List (String × AuthorRec)) :
    (processAuthor se d a).map Prod.fst = d.map Prod.fst ∨
      ∃ m, acceptedName a = some m ∧ findRec m d = none ∧
        (processAuthor se d a).map Prod.fst = d.map Prod.fst ++ [m] := by
  cases h : acceptedName a with
  | none => left; simp [processAuthor, h]
  | some m =>
    by_cases hnew : (findRec m d).isNone
    · right
      refine ⟨m, rfl, Option.isNone_iff_eq_none.mp hnew, ?_⟩
      simp [processAuthor, h, hnew, keys_updateRec]
    · left
      simp [processAuthor, h, hnew, keys_updateRec]

/-! ## Generic fold helpers -/

theorem foldl_preserves {α β : Type} {P : β → Prop} {f : β → α → β}
    (step : ∀ d x, P d → P (f d x)) :
    ∀ (l : List α) (d : β), P d → P (l.foldl f d) := by
  intro l
  induction l with
  | nil => intro d h; exact h
  | cons x t ih => intro d h; exact ih _ (step d x h)

theorem foldl_extends {α β : Type} {R : β → β → Prop} {f : β → α → β}
    (hrefl : ∀ d, R d d)
    (htrans : ∀ a b c, R a b → R b c → R a c)
    (hstep : ∀ d x, R d (f d x)) :
    ∀ (l : List α) (d : β), R d (l.foldl f d) := by
  intro l
  induction l with
  | nil => intro d; exact hrefl d
  | cons x t ih => intro d; exact htrans _ _ _ (hstep d x) (ih (f d x))

/-! ## Keys of the aggregate: all longer than 2 characters, no duplicates -/

theorem goodKeys_processAuthor {se : List String} {a : Author}
    {d : List (String × AuthorRec)}
    (hd : ∀ m ∈ d.map Prod.fst, 2 < m.length) :
    ∀ m ∈ (processAuthor se d a).map Prod.fst, 2 < m.length := by
  intro m hm
  rcases keys_processAuthor se a d with hk | ⟨m', ha, _, hk⟩
  · rw [hk] at hm; exact hd m hm
  · rw [hk] at hm
    rcases List.mem_append.mp hm with h | h
    · exact hd m h
    · have hmm : m = m' := by simpa using h
      exact hmm ▸ acceptedName_some_length ha

theorem goodKeys_aggregate (papers : List Paper) :
    ∀ m ∈ (aggregate papers).map Prod.fst, 2 < m.length := by
  exact @foldl_preserves Paper (List (String × AuthorRec))
    (fun d => ∀ m ∈ d.map Prod.fst, 2 < m.length) processPaper
    (fun d p hd =>
      @foldl_preserves Author (List (String × AuthorRec))
        (fun d' => ∀ m ∈ d'.map Prod.fst, 2 < m.length)
        (processAuthor (findEmails (snippetOf p)))
        (fun d' x hd' => goodKeys_processAuthor hd') p.authors d hd)
    papers [] (by simp)

theorem nodupKeys_processAuthor {se : List String} {a : Author}
    {d : List (String × AuthorRec)} (hd : (d.map Prod.fst).Nodup) :
    ((processAuthor se d a).map Prod.fst).Nodup := by
  rcases keys_processAuthor se a d with hk | ⟨m, _, hnone, hk⟩
  · rw [hk]; exact hd
  · rw [hk]
    have hmem : m ∉ d.map Prod.fst := (findRec_eq_none_iff m d).mp hnone
    simp [List.nodup_append, hd, hmem]

theorem nodupKeys_aggregate (papers : List Paper) :
    ((aggregate papers).map Prod.fst).Nodup := by
  exact @foldl_preserves Paper (List (String × AuthorRec))
    (fun d => (d.map Prod.fst).Nodup) processPaper
    (fun d p hd =>
      @foldl_preserves Author (List (String × AuthorRec))
        (fun d' => (d'.map Prod.fst).Nodup)
        (processAuthor (findEmails (snippetOf p)))
        (fun d' x hd' => nodupKeys_processAuthor hd') p.authors d hd)
    papers [] (by simp)

/-! ## Claim C2 -/

/-- C2 (amended): the stored `occurrence_count` of a name equals the total
number of non-rejected *mentions* of that name across all source records
(a name mentioned twice within one record contributes 2, not 1), and
extending the input never decreases any stored count. -/
theorem claim_c2_count_equals_mentions (papers qs : List Paper) (n : String) :
    (∀ r, findRec n (aggregate papers) = some r →
      r.count = mentionCountsFor n papers)
    ∧ countOf n (aggregate papers) ≤ countOf n (aggregate (papers ++ qs)) := by
  constructor
  · intro r hr
    rw [← countOf_eq_of_findRec hr, countOf_aggregate]
  · rw [countOf_aggregate, countOf_aggregate]
    unfold mentionCountsFor
    rw [List.map_append, List.sum_append]
    exact Nat.le_add_right _ _

/-- Witness for C2's theorem at a concrete input. -/
theorem claim_c2_count_equals_mentions_witness :
    (({ count := 1, profile := "(profile not available)", emails := [] } : AuthorRec).count
        = mentionCountsFor "John Doe" plainPapers)
    ∧ countOf "John Doe" (aggregate plainPapers) ≤
        countOf "John Doe" (aggregate (plainPapers ++ dupMentionPapers)) :=
  ⟨(claim_c2_count_equals_mentions plainPapers dupMentionPapers "John Doe").1 _ (by decide),
   (claim_c2_count_equals_mentions plainPapers dupMentionPapers "John Doe").2⟩

/-- C2 counterexample: one record mentioning "John Doe" twice in its author
list yields a stored count of 2, while the number of distinct source records
containing a non-rejected mention of that name is 1 — so `occurrence_count`
does not equal the claimed per-record tally. -/
theorem claim_c2_counterexample :
    countOf "John Doe" (aggregate dupMentionPapers) = 2
    ∧ recordsMentioning "John Doe" dupMentionPapers = 1
    ∧ (2 : Nat) ≠ 1 :=
  ⟨by decide, by decide, by decide⟩

/-! ## Claim C8 -/

/-- C8: a raw name candidate that is missing, empty, or of stripped length
at most 2 is rejected by the normalizer (no error is raised — the model is
total), and no such candidate ever appears as a key of the aggregate: every
stored author name has length at least 3.  In particular `"Al"` never
produces a row. -/
theorem claim_c8_short_names_rejected :
    (∀ papers n r, findRec n (aggregate papers) = some r → 2 < n.length)
    ∧ (∀ (a : Author) (s : String), pyGet a "name" = PyVal.str s →
        (pyStrip s).length ≤ 2 → acceptedName a = none)
    ∧ (∀ a : Author, pyGet a "name" = PyVal.none_ → acceptedName a = none) := by
  refine ⟨?_, ?_, ?_⟩
  · intro papers n r hr
    exact goodKeys_aggregate papers n (mem_keys_of_findRec_some hr)
  · intro a s hs hlen
    simp only [acceptedName, hs]
    by_cases he : s = ""
    · rw [if_pos he]
    · rw [if_neg he, if_pos hlen]
  · intro a hs
    simp only [acceptedName, hs]

/-- Witness for C8's theorem at concrete inputs, including the `"Al"`
scenario. -/
theorem claim_c8_short_names_rejected_witness :
    2 < ("John Doe" : String).length
    ∧ acceptedName [("name", PyVal.str "Al")] = none
    ∧ acceptedName [("link", PyVal.str "http://x")] = none :=
  ⟨claim_c8_short_names_rejected.1 plainPapers "John Doe"
      { count := 1, profile := "(profile not available)", emails := [] } (by decide),
   claim_c8_short_names_rejected.2.1 [("name", PyVal.str "Al")] "Al" (by decide) (by decide),
   claim_c8_short_names_rejected.2.2 [("link", PyVal.str "http://x")] (by decide)⟩

/-! ## Email-set lemmas (claim C3) -/

theorem mem_insertEmail_of_mem {x : String} {l : List String} (e : String)
    (h : x ∈ l) : x ∈ insertEmail l e := by
  unfold insertEmail
  split
  · exact h
  · exact List.mem_append_left _ h

theorem mem_insertEmail_self (l : List String) (e : String) :
    e ∈ insertEmail l e := by
  unfold insertEmail
  split
  · assumption
  · exact List.mem_append_right _ (by simp)

theorem mem_addEmails_of_mem_left {x : String} :
    ∀ (es l : List String), x ∈ l → x ∈ addEmails l es := by
  intro es
  induction es with
  | nil => intro l h; exact h
  | cons e t ih => intro l h; exact ih _ (mem_insertEmail_of_mem e h)

theorem mem_addEmails_of_mem_right {x : String} :
    ∀ (es l : List String), x ∈ es → x ∈ addEmails l es := by
  intro es
  induction es with
  | nil => intro l h; simp at h
  | cons e t ih =>
    intro l h
    rcases List.mem_cons.mp h with rfl | h
    · exact mem_addEmails_of_mem_left t _ (mem_insertEmail_self l x)
    · exact ih _ h

theorem emailsOf_mono_processAuthor {n : String} (se : List String)
    (a : Author) (d : List (String × AuthorRec)) :
    ∀ x, x ∈ emailsOf n d → x ∈ emailsOf n (processAuthor se d a) := by
  intro x hx
  have h := findRec_processAuthor se a d n
  by_cases hc : acceptedName a = some n
  · rw [if_pos hc] at h
    cases hnd : findRec n d with
    | none => simp [emailsOf, hnd] at hx
    | some r =>
      rw [hnd] at h
      have he : emailsOf n (processAuthor se d a) = (bumpAuthor se a r).emails := by
        simp [emailsOf, h]
      rw [he]
      simp only [bumpAuthor]
      exact mem_addEmails_of_mem_left _ _
        (mem_addEmails_of_mem_left _ _ (by simpa [emailsOf, hnd] using hx))
  · rw [if_neg hc] at h
    simp only [emailsOf, h]
    simpa [emailsOf] using hx

theorem emailsOf_added_processAuthor {n : String} {se : List String}
    {a : Author} (d : List (String × AuthorRec))
    (hc : acceptedName a = some n) :
    ∀ x, (x ∈ se ∨ x ∈ authorFieldEmails a) →
      x ∈ emailsOf n (processAuthor se d a) := by
  intro x hx
  have h := findRec_processAuthor se a d n
  rw [if_pos hc] at h
  have he : emailsOf n (processAuthor se d a) =
      (bumpAuthor se a ((findRec n d).getD (newAuthorRec a))).emails := by
    simp [emailsOf, h]
  rw [he]
  simp only [bumpAuthor]
  rcases hx with hx | hx
  · exact mem_addEmails_of_mem_left _ _ (mem_addEmails_of_mem_right _ _ hx)
  · exact mem_addEmails_of_mem_right _ _ hx

theorem emailsOf_mono_foldl_authors {n : String} (se : List String)
    (authors : List Author) (d : List (String × AuthorRec)) :
    ∀ x, x ∈ emailsOf n d →
      x ∈ emailsOf n (authors.foldl (processAuthor se) d) :=
  @foldl_extends Author (List (String × AuthorRec))
    (fun d₁ d₂ => ∀ x, x ∈ emailsOf n d₁ → x ∈ emailsOf n d₂)
    (processAuthor se)
    (fun _ _ hx => hx)
    (fun _ _ _ hab hbc x hx => hbc x (hab x hx))
    (fun d' a x hx => emailsOf_mono_processAuthor se a d' x hx)
    authors d

theorem emailsOf_mono_foldl_papers {n : String} (papers : List Paper)
    (d : List (String × AuthorRec)) :
    ∀ x, x ∈ emailsOf n d → x ∈ emailsOf n (papers.foldl processPaper d) :=
  @foldl_extends Paper (List (String × AuthorRec))
    (fun d₁ d₂ => ∀ x, x ∈ emailsOf n d₁ → x ∈ emailsOf n d₂)
    processPaper
    (fun _ _ hx => hx)
    (fun _ _ _ hab hbc x hx => hbc x (hab x hx))
    (fun d' p x hx =>
      emailsOf_mono_foldl_authors (findEmails (snippetOf p)) p.authors d' x hx)
    papers d

/-! ## Claim C3 -/

/-- C3 (amended): the email extraction scans the record's `snippet` field
and every string-valued field of each author mention — every match found
there is added to the mentioned author's email set.  (Other string-valued
fields of the record are NOT scanned; see the counterexample.) -/
theorem claim_c3_snippet_and_author_fields_scanned
    (papers : List Paper) (p : Paper) (a : Author) (n : String)
    (r : AuthorRec) (x : String)
    (hp : p ∈ papers) (ha : a ∈ p.authors) (hn : acceptedName a = some n)
    (hr : findRec n (aggregate papers) = some r)
    (hx : x ∈ findEmails (snippetOf p) ∨ x ∈ authorFieldEmails a) :
    x ∈ r.emails := by
  obtain ⟨pre, post, rfl⟩ := List.append_of_mem hp
  obtain ⟨apre, apost, haeq⟩ := List.append_of_mem ha
  have hx1 : x ∈ emailsOf n (processPaper (pre.foldl processPaper []) p) := by
    rw [processPaper, haeq, List.foldl_append, List.foldl_cons]
    exact emailsOf_mono_foldl_authors _ apost _ x
      (emailsOf_added_processAuthor _ hn x hx)
  have hx2 : x ∈ emailsOf n (aggregate (pre ++ p :: post)) := by
    rw [aggregate, List.foldl_append, List.foldl_cons]
    exact emailsOf_mono_foldl_papers post _ x hx1
  simpa [emailsOf, hr] using hx2

/-- Witness for C3's theorem: in the "A Smith" scenario the snippet address
of the first record ends up in the aggregated email set. -/
theorem claim_c3_snippet_and_author_fields_scanned_witness :
    "a.smith@uni.edu" ∈
      ({ count := 2, profile := "(profile not available)",
         emails := ["a.smith@uni.edu"] } : AuthorRec).emails :=
  claim_c3_snippet_and_author_fields_scanned scenarioPapers smithPaper1
    [("name", PyVal.str "A Smith")] "A Smith" _ "a.smith@uni.edu"
    (by decide) (by decide) (by decide) (by decide) (Or.inl (by decide))

/-- C3 counterexample: a record whose only address occurs in its `title`
field (a string-valued field of the record that is not the snippet) ends
with an empty aggregated email set for its author, although the extractor
does match the address in that field — so the extraction does NOT scan
every string-valued field of the record. -/
theorem claim_c3_counterexample :
    "x@y.com" ∈ findEmails "see x@y.com for info"
    ∧ findRec "John Doe" (aggregate titleEmailPapers) =
        some { count := 1, profile := "(profile not available)", emails := [] } :=
  ⟨by decide, by decide⟩

/-! ## Profile-link lemmas (claim C1) -/

theorem find?_append_some {α : Type} {p : α → Bool} {l₁ : List α}
    (l₂ : List α) {a : α} (h : l₁.find? p = some a) :
    (l₁ ++ l₂).find? p = some a := by
  induction l₁ with
  | nil => simp [List.find?] at h
  | cons x t ih =>
    by_cases hx : p x
    · rw [List.find?_cons_of_pos _ hx] at h
      rw [List.cons_append, List.find?_cons_of_pos _ hx]
      exact h
    · rw [List.find?_cons_of_neg _ hx] at h
      rw [List.cons_append, List.find?_cons_of_neg _ hx]
      exact ih h

theorem find?_append_none {α : Type} {p : α → Bool} {l₁ : List α}
    (l₂ : List α) (h : l₁.find? p = none) :
    (l₁ ++ l₂).find? p = l₂.find? p := by
  induction l₁ with
  | nil => simp
  | cons x t ih =>
    by_cases hx : p x
    · rw [List.find?_cons_of_pos _ hx] at h
      exact Option.noConfusion h
    · rw [List.find?_cons_of_neg _ hx] at h
      rw [List.cons_append, List.find?_cons_of_neg _ hx]
      exact ih h

/-- The invariant tying the mapping to the processed mention history: every
entry's profile is dictated by the history's first accepted mention of the
name, and absent names have no accepted mention in the history. -/
def profInv (hist : List Author) (d : List (String × AuthorRec)) : Prop :=
  (∀ n r, findRec n d = some r →
    ∃ a, hist.find? (fun a => decide (acceptedName a = some n)) = some a ∧
      r.profile = (linkOf a).getD "(profile not available)")
  ∧ (∀ n, findRec n d = none →
      hist.find? (fun a => decide (acceptedName a = some n)) = none)

theorem profInv_step (hist : List Author) (se : List String) (a : Author)
    (d : List (String × AuthorRec)) (h : profInv hist d) :
    profInv (hist ++ [a]) (processAuthor se d a) := by
  obtain ⟨h1, h2⟩ := h
  constructor
  · intro n r hr
    have hchar := findRec_processAuthor se a d n
    by_cases hc : acceptedName a = some n
    · rw [if_pos hc] at hchar
      rw [hchar] at hr
      cases hnd : findRec n d with
      | some r₀ =>
        obtain ⟨a₀, ha₀, hp₀⟩ := h1 n r₀ hnd
        refine ⟨a₀, find?_append_some _ ha₀, ?_⟩
        rw [hnd] at hr
        have hrr : r = bumpAuthor se a r₀ := (Option.some.inj hr).symm
        rw [hrr]
        simpa [bumpAuthor] using hp₀
      | none =>
        refine ⟨a, ?_, ?_⟩
        · rw [find?_append_none _ (h2 n hnd)]
          simp [List.find?, hc]
        · rw [hnd] at hr
          have hrr : r = bumpAuthor se a (newAuthorRec a) := (Option.some.inj hr).symm
          rw [hrr]
          simp [bumpAuthor, newAuthorRec]
    · rw [if_neg hc] at hchar
      rw [hchar] at hr
      obtain ⟨a₀, ha₀, hp₀⟩ := h1 n r hr
      exact ⟨a₀, find?_append_some _ ha₀, hp₀⟩
  · intro n hn
    have hchar := findRec_processAuthor se a d n
    by_cases hc : acceptedName a = some n
    · rw [if_pos hc] at hchar
      rw [hchar] at hn
      exact Option.noConfusion hn
    · rw [if_neg hc] at hchar
      rw [hchar] at hn
      rw [find?_append_none _ (h2 n hn)]
      simp [List.find?, hc]

theorem profInv_foldl_authors (se : List String) :
    ∀ (authors : List Author) (hist : List Author)
      (d : List (String × AuthorRec)), profInv hist d →
      profInv (hist ++ authors) (authors.foldl (processAuthor se) d) := by
  intro authors
  induction authors with
  | nil => intro hist d h; simpa using h
  | cons a t ih =>
    intro hist d h
    have h2 := ih (hist ++ [a]) _ (profInv_step hist se a d h)
    simpa [List.append_assoc] using h2

theorem profInv_foldl_papers :
    ∀ (papers : List Paper) (hist : List Author)
      (d : List (String × AuthorRec)), profInv hist d →
      profInv (hist ++ flatMentions papers) (papers.foldl processPaper d) := by
  intro papers
  induction papers with
  | nil => intro hist d h; simpa [flatMentions] using h
  | cons p t ih =>
    intro hist d h
    have h1 := profInv_foldl_authors (findEmails (snippetOf p)) p.authors hist d h
    have h2 := ih (hist ++ p.authors) (processPaper d p) h1
    simpa [flatMentions, List.append_assoc] using h2

theorem profInv_aggregate (papers : List Paper) :
    profInv (flatMentions papers) (aggregate papers) := by
  have hbase : profInv [] [] := by
    constructor
    · intro n r hr; simp [findRec] at hr
    · intro n _; simp [List.find?]
  have h := profInv_foldl_papers papers [] [] hbase
  simpa [aggregate] using h

/-! ## Claim C1 -/

/-- C1 (amended): the `profile_link` of an author record is fixed by the
FIRST non-rejected mention of the name — that mention's truthy
`link`/`profile` value, or the placeholder "(profile not available)" if it
carries none; a non-empty link on a later mention is never adopted.  (The
claim's "first non-empty link wins" is false: in the two-record scenario
the result is the placeholder, not `http://scholar/asmith`.) -/
theorem claim_c1_profile_fixed_by_first_mention (papers : List Paper)
    (n : String) (r : AuthorRec)
    (hr : findRec n (aggregate papers) = some r) :
    (firstMentionOf n papers).isSome = true
    ∧ r.profile = profileFromFirst n papers := by
  obtain ⟨a, ha, hp⟩ := (profInv_aggregate papers).1 n r hr
  refine ⟨?_, ?_⟩
  · rw [firstMentionOf, ha]; rfl
  · simp only [profileFromFirst, firstMentionOf, ha]
    exact hp

/-- Witness for C1's theorem on the two-record scenario. -/
theorem claim_c1_profile_fixed_by_first_mention_witness :
    (firstMentionOf "A Smith" scenarioPapers).isSome = true
    ∧ ({ count := 2, profile := "(profile not available)",
         emails := ["a.smith@uni.edu"] } : AuthorRec).profile
        = profileFromFirst "A Smith" scenarioPapers :=
  claim_c1_profile_fixed_by_first_mention scenarioPapers "A Smith" _ (by decide)

/-- C1 counterexample: aggregating the spec's two-record scenario yields
profile "(profile not available)" for "A Smith", not the claimed
`http://scholar/asmith` — the second record's non-empty link is NOT
adopted. -/
theorem claim_c1_counterexample :
    findRec "A Smith" (aggregate scenarioPapers) =
      some { count := 2, profile := "(profile not available)",
             emails := ["a.smith@uni.edu"] }
    ∧ "(profile not available)" ≠ "http://scholar/asmith" :=
  ⟨by decide, by decide⟩

/-! ## Sorting lemmas (claims C5 and C6) -/

theorem insertRanked_perm (x : String × AuthorRec) :
    ∀ l, List.Perm (insertRanked x l) (x :: l) := by
  intro l
  induction l with
  | nil => exact List.Perm.refl _
  | cons y ys ih =>
    unfold insertRanked
    split
    · exact List.Perm.refl _
    · exact List.Perm.trans (List.Perm.cons y ih) (List.Perm.swap x y ys)

theorem sortRanked_perm : ∀ l, List.Perm (sortRanked l) l := by
  intro l
  induction l with
  | nil => exact List.Perm.refl _
  | cons x t ih =>
    exact List.Perm.trans (insertRanked_perm x (sortRanked t)) (List.Perm.cons x ih)

theorem filter_insertRanked_pos {c : Nat} {x : String × AuthorRec}
    (hx : x.2.count = c) :
    ∀ l, (insertRanked x l).filter (fun e => decide (e.2.count = c)) =
      x :: l.filter (fun e => decide (e.2.count = c)) := by
  intro l
  induction l with
  | nil => simp [insertRanked, hx]
  | cons y ys ih =>
    unfold insertRanked
    by_cases hcmp : y.2.count ≤ x.2.count
    · rw [if_pos hcmp]
      simp [List.filter_cons, hx]
    · rw [if_neg hcmp]
      have hy : ¬ (y.2.count = c) := by omega
      simp only [List.filter_cons, ih]
      simp [hy]

theorem filter_insertRanked_neg {c : Nat} {x : String × AuthorRec}
    (hx : ¬ x.2.count = c) :
    ∀ l, (insertRanked x l).filter (fun e => decide (e.2.count = c)) =
      l.filter (fun e => decide (e.2.count = c)) := by
  intro l
  induction l with
  | nil => simp [insertRanked, hx]
  | cons y ys ih =>
    unfold insertRanked
    by_cases hcmp : y.2.count ≤ x.2.count
    · rw [if_pos hcmp]
      simp [List.filter_cons, hx]
    · rw [if_neg hcmp]
      simp only [List.filter_cons, ih]

theorem filter_sortRanked (c : Nat) :
    ∀ l, (sortRanked l).filter (fun e => decide (e.2.count = c)) =
      l.filter (fun e => decide (e.2.count = c)) := by
  intro l
  induction l with
  | nil => rfl
  | cons x t ih =>
    show (insertRanked x (sortRanked t)).filter _ = _
    by_cases hx : x.2.count = c
    · rw [filter_insertRanked_pos hx, ih]
      simp [List.filter_cons, hx]
    · rw [filter_insertRanked_neg hx, ih]
      simp [List.filter_cons, hx]

theorem mem_right_of_occursBefore {α : Type} [DecidableEq α] {a b : α} :
    ∀ {l : List α}, occursBefore a b l = true → b ∈ l := by
  intro l
  induction l with
  | nil => intro h; simp [occursBefore] at h
  | cons x t ih =>
    intro h
    unfold occursBefore at h
    split at h
    · rename_i hcond; exact List.mem_cons_of_mem _ hcond.2
    · exact List.mem_cons_of_mem _ (ih h)

theorem occursBefore_sublist {α : Type} [DecidableEq α] {a b : α}
    {l₁ l₂ : List α} (hsub : List.Sublist l₁ l₂)
    (h : occursBefore a b l₁ = true) : occursBefore a b l₂ = true := by
  induction hsub with
  | slnil => simp [occursBefore] at h
  | cons x _ ih =>
    unfold occursBefore
    split
    · rfl
    · exact ih h
  | cons₂ x hs ih =>
    unfold occursBefore at h ⊢
    split at h
    · rename_i hcond
      rw [if_pos ⟨hcond.1, hs.subset hcond.2⟩]
    · split
      · rfl
      · exact ih h

theorem occursBefore_filter {α : Type} [DecidableEq α] {a b : α}
    {p : α → Bool} (ha : p a = true) (hb : p b = true) :
    ∀ {l : List α}, occursBefore a b l = true →
      occursBefore a b (l.filter p) = true := by
  intro l
  induction l with
  | nil => intro h; simp [occursBefore] at h
  | cons x t ih =>
    intro h
    unfold occursBefore at h
    split at h
    · rename_i hcond
      obtain ⟨hxa, hbt⟩ := hcond
      rw [List.filter_cons_of_pos (by rw [hxa]; exact ha)]
      unfold occursBefore
      rw [if_pos ⟨hxa, List.mem_filter.mpr ⟨hbt, hb⟩⟩]
    · by_cases hx : p x
      · rw [List.filter_cons_of_pos hx]
        unfold occursBefore
        split
        · rfl
        · exact ih h
      · rw [List.filter_cons_of_neg (by simp [hx])]
        exact ih h

theorem occursBefore_take {α : Type} [DecidableEq α] {a b : α} :
    ∀ {l : List α} {k : Nat}, l.Nodup → occursBefore a b l = true →
      b ∈ l.take k → occursBefore a b (l.take k) = true := by
  intro l
  induction l with
  | nil => intro k _ h _; simp [occursBefore] at h
  | cons x t ih =>
    intro k hnd h hmem
    cases k with
    | zero => simp at hmem
    | succ k' =>
      rw [List.take_succ_cons] at hmem ⊢
      unfold occursBefore at h ⊢
      split at h
      · rename_i hcond
        obtain ⟨hxa, hbt⟩ := hcond
        have hbx : b ≠ x := by
          intro hbx
          rw [hbx] at hbt
          exact (List.nodup_cons.mp hnd).1 hbt
        have hbtk : b ∈ t.take k' := by
          rcases List.mem_cons.mp hmem with h' | h'
          · exact absurd h' hbx
          · exact h'
        rw [if_pos ⟨hxa, hbtk⟩]
      · have hbt : b ∈ t := mem_right_of_occursBefore h
        have hbx : b ≠ x := fun hbx => (List.nodup_cons.mp hnd).1 (hbx ▸ hbt)
        have hbtk : b ∈ t.take k' := by
          rcases List.mem_cons.mp hmem with h' | h'
          · exact absurd h' hbx
          · exact h'
        split
        · rfl
        · exact ih (List.nodup_cons.mp hnd).2 h hbtk

/-! ## Claim C5 -/

/-- C5: the descending sort by `occurrence_count` is stable with respect to
first-encounter order.  The aggregate's association-list order IS
first-encounter order (a name is appended exactly when first accepted), so:
for two aggregate entries with equal counts where `e₁` precedes `e₂`, if
`e₂` is in the rendered top-K list then `e₁` precedes it there too (hence
gets the smaller rank, since rows are rendered in list order). -/
theorem claim_c5_ranking_stable (papers : List Paper) (k : Nat)
    (e₁ e₂ : String × AuthorRec)
    (hcnt : e₁.2.count = e₂.2.count)
    (hbefore : occursBefore e₁ e₂ (aggregate papers) = true)
    (hin : e₂ ∈ rankedList (aggregate papers) k) :
    occursBefore e₁ e₂ (rankedList (aggregate papers) k) = true := by
  have hnd : (aggregate papers).Nodup :=
    List.Nodup.of_map Prod.fst (nodupKeys_aggregate papers)
  have h1 : occursBefore e₁ e₂
      ((aggregate papers).filter (fun e => decide (e.2.count = e₁.2.count))) = true :=
    occursBefore_filter (by simp) (by simp [← hcnt]) hbefore
  rw [← filter_sortRanked] at h1
  have h2 : occursBefore e₁ e₂ (sortRanked (aggregate papers)) = true :=
    occursBefore_sublist (List.filter_sublist _) h1
  have hnd2 : (sortRanked (aggregate papers)).Nodup :=
    ((sortRanked_perm (aggregate papers)).nodup_iff).mpr hnd
  exact occursBefore_take hnd2 h2 hin

/-- Witness for C5's theorem: two authors with equal counts keep their
first-encounter order in the ranked list. -/
theorem claim_c5_ranking_stable_witness :
    occursBefore
      ("John Doe", { count := 1, profile := "(profile not available)",
                     emails := [] })
      ("Jane Roe", { count := 1, profile := "(profile not available)",
                     emails := [] })
      (rankedList (aggregate twoAuthorPapers) 2) = true :=
  claim_c5_ranking_stable twoAuthorPapers 2
    ("John Doe", { count := 1, profile := "(profile not available)", emails := [] })
    ("Jane Roe", { count := 1, profile := "(profile not available)", emails := [] })
    (by decide) (by decide) (by decide)

/-! ## Claims C6 and C9 -/

/-- C6: for a non-empty aggregate, cutoff `K = 0` renders the header lines
and no body rows, and any `K` at least the number of authors ranks every
author exactly once (the ranked list is a permutation of the aggregate,
with exactly one rendered row per author and no padding). -/
theorem claim_c6_cutoff_boundaries (agg : List (String × AuthorRec)) (k : Nat)
    (hne : agg ≠ []) :
    renderReport agg 0 = headerStr
    ∧ (agg.length ≤ k →
        List.Perm (rankedList agg k) agg
        ∧ (rowsOf (rankedList agg k)).length = agg.length) := by
  constructor
  · rw [renderReport, if_neg (by simpa using hne)]
    simp [rankedList, rowsOf, String.join]
  · intro hk
    have hperm : List.Perm (rankedList agg k) agg := by
      rw [rankedList, List.take_of_length_le
        (by rw [(sortRanked_perm agg).length_eq]; exact hk)]
      exact sortRanked_perm agg
    refine ⟨hperm, ?_⟩
    simp only [rowsOf, List.length_map, List.enum_length]
    exact hperm.length_eq

/-- Witness for C6's theorem on a one-author aggregate with K = 5. -/
theorem claim_c6_cutoff_boundaries_witness :
    renderReport [("John Doe", { count := 2, profile := "p", emails := [] })] 0 = headerStr
    ∧ (List.Perm
        (rankedList [("John Doe", { count := 2, profile := "p", emails := [] })] 5)
        [("John Doe", { count := 2, profile := "p", emails := [] })]
      ∧ (rowsOf (rankedList
          [("John Doe", { count := 2, profile := "p", emails := [] })] 5)).length = 1) :=
  ⟨(claim_c6_cutoff_boundaries _ 5 (by decide)).1,
   (claim_c6_cutoff_boundaries _ 5 (by decide)).2 (by decide)⟩

/-- C9: the ranker/reporter always returns a non-empty string — the empty
aggregate yields the "No authors found." sentence, any other aggregate the
rendered table (the header lines followed by the body rows). -/
theorem claim_c9_report_never_empty (agg : List (String × AuthorRec))
    (k : Nat) :
    renderReport agg k ≠ ""
    ∧ (agg = [] → renderReport agg k = "No authors found.")
    ∧ (agg ≠ [] →
        renderReport agg k = headerStr ++ String.join (rowsOf (rankedList agg k))) := by
  refine ⟨?_, ?_, ?_⟩
  · rw [renderReport]
    split
    · decide
    · intro hcontra
      have hlen := congrArg String.length hcontra
      rw [String.length_append] at hlen
      have h93 : 0 < headerStr.length := by decide
      simp at hlen
      omega
  · intro he
    rw [renderReport, if_pos (by simp [he])]
  · intro he
    rw [renderReport, if_neg (by simpa using he)]

/-- Witness for C9's theorem on concrete aggregates. -/
theorem claim_c9_report_never_empty_witness :
    renderReport [] 3 = "No authors found."
    ∧ renderReport [("John Doe", { count := 1, profile := "p", emails := [] })] 3
        = headerStr ++ String.join (rowsOf (rankedList
            [("John Doe", { count := 1, profile := "p", emails := [] })] 3)) :=
  ⟨(claim_c9_report_never_empty [] 3).2.1 rfl,
   (claim_c9_report_never_empty
      [("John Doe", { count := 1, profile := "p", emails := [] })] 3).2.2 (by decide)⟩

/-! ## Mail-loop lemmas (claims C4, C7, C10) -/

theorem sendLoop_partition :
    ∀ (recs : List String) (canSend : String → Bool) (i : Nat) (x : String),
      (∀ e ∈ recs.take i, canSend e = true) → recs.get? i = some x →
      canSend x = false →
      sendLoop canSend recs = (recs.take i, recs.take (i+1), false) := by
  intro recs
  induction recs with
  | nil => intro canSend i x _ hget _; simp at hget
  | cons r rs ih =>
    intro canSend i x hok hget hfail
    cases i with
    | zero =>
      have hrx : r = x := by simpa using hget
      unfold sendLoop
      rw [if_neg (by rw [hrx, hfail]; simp)]
      simp
    | succ i' =>
      have hget' : rs.get? i' = some x := by simpa using hget
      have hr : canSend r = true := hok r (by simp)
      have hok' : ∀ e ∈ rs.take i', canSend e = true :=
        fun e he => hok e (by simp [he])
      unfold sendLoop
      rw [if_pos (by rw [hr])]
      rw [ih canSend i' x hok' hget' hfail]
      simp [List.take_succ_cons]

theorem sendLoop_all_true :
    ∀ l : List String, sendLoop (fun _ => true) l = (l, l, true) := by
  intro l
  induction l with
  | nil => rfl
  | cons r rs ih => simp [sendLoop, ih]

/-! ## Claim C7 -/

/-- C7: `send_mail` attempts recipients strictly in list order and a
transport failure at position `i` aborts the rest: the recipients before
`i` each received one message, position `i` was attempted and failed, the
recipients after `i` were never attempted, and the exception propagates
(no return value). -/
theorem claim_c7_first_failure_aborts (envPass : Option String)
    (promptedPass ans subject : String) (recs : List String)
    (canSend : String → Bool) (i : Nat) (x : String)
    (hne : ¬ recs.isEmpty)
    (hok : ∀ e ∈ recs.take i, canSend e = true)
    (hget : recs.get? i = some x) (hfail : canSend x = false) :
    (send_mail envPass promptedPass ans subject (some recs) canSend).delivered
        = recs.take i
    ∧ (send_mail envPass promptedPass ans subject (some recs) canSend).attempted
        = recs.take (i+1)
    ∧ (send_mail envPass promptedPass ans subject (some recs) canSend).retval
        = none := by
  have hloop := sendLoop_partition recs canSend i x hok hget hfail
  simp [send_mail, sendMailWith, hne, hloop]

/-- Witness for C7's theorem: three recipients, failure on the second. -/
theorem claim_c7_first_failure_aborts_witness :
    (send_mail (some "pw") "" "body" "subj"
        (some ["a@x.co", "b@x.co", "c@x.co"])
        (fun s => !(s == "b@x.co"))).delivered = ["a@x.co"]
    ∧ (send_mail (some "pw") "" "body" "subj"
        (some ["a@x.co", "b@x.co", "c@x.co"])
        (fun s => !(s == "b@x.co"))).attempted = ["a@x.co", "b@x.co"]
    ∧ (send_mail (some "pw") "" "body" "subj"
        (some ["a@x.co", "b@x.co", "c@x.co"])
        (fun s => !(s == "b@x.co"))).retval = none :=
  claim_c7_first_failure_aborts (some "pw") "" "body" "subj"
    ["a@x.co", "b@x.co", "c@x.co"] (fun s => !(s == "b@x.co")) 1 "b@x.co"
    (by decide) (by decide) (by decide) (by decide)

/-! ## Claim C10 -/

/-- C10: with `receivers` equal to `None` or the empty list and a working
transport, `send_mail` does not fail: it substitutes the hardcoded default
recipient list (the developer's own addresses), sends one message to each
default address, and returns a success string naming them — in both source
files. -/
theorem claim_c10_default_receivers (envPass : Option String)
    (promptedPass ans subject : String) :
    ((send_mail envPass promptedPass ans subject none (fun _ => true)).delivered
        = defaultReceivers
      ∧ (send_mail envPass promptedPass ans subject none (fun _ => true)).retval
        = some "Emails sent successfully to: rana.sayak.2001@gmail.com")
    ∧ ((send_mail envPass promptedPass ans subject (some []) (fun _ => true)).delivered
        = defaultReceivers
      ∧ (send_mail envPass promptedPass ans subject (some []) (fun _ => true)).retval
        = some "Emails sent successfully to: rana.sayak.2001@gmail.com")
    ∧ ((send_mail_exp envPass promptedPass ans subject none (fun _ => true)).delivered
        = defaultReceiversExp
      ∧ (send_mail_exp envPass promptedPass ans subject none (fun _ => true)).retval
        = some "Emails sent successfully to: sayakrana108@gmail.com, sayak.rana2001@gmail.com, rana.sayak.2001@gmail.com")
    ∧ ((send_mail_exp envPass promptedPass ans subject (some []) (fun _ => true)).delivered
        = defaultReceiversExp
      ∧ (send_mail_exp envPass promptedPass ans subject (some []) (fun _ => true)).retval
        = some "Emails sent successfully to: sayakrana108@gmail.com, sayak.rana2001@gmail.com, rana.sayak.2001@gmail.com") := by
  refine ⟨⟨?_, ?_⟩, ⟨?_, ?_⟩, ⟨?_, ?_⟩, ⟨?_, ?_⟩⟩ <;>
    simp [send_mail, send_mail_exp, sendMailWith, sendLoop_all_true,
      defaultReceivers, defaultReceiversExp] <;>
    rfl

/-! ## Claim C4 -/

/-- C4 (amended): the search and the paper-analysis model call fail fast
with a descriptive error and never attempt the dependent network call when
their credential is absent; `send_mail`, however, does NOT fail fast on a
missing `MAIL_APP_PASS` — it prompts interactively for a password and
proceeds to attempt the send. -/
theorem claim_c4_credential_handling (results : List Paper) (topK : Nat)
    (text modelResp promptedPass ans subject : String) (recs : List String)
    (canSend : String → Bool)
    (htext : text ≠ "") (hrecs : recs ≠ []) :
    get_top_researchers none results topK =
      ("ERROR: SERPAPI_KEY not found in environment variables.", false)
    ∧ analyze_paper text none modelResp = ("Error: GEMINI_API_KEY missing.", false)
    ∧ (send_mail none promptedPass ans subject (some recs) canSend).promptedForPass
        = true
    ∧ (send_mail none promptedPass ans subject (some recs) canSend).usedPass
        = promptedPass
    ∧ (send_mail none promptedPass ans subject (some recs) canSend).attempted
        ≠ [] := by
  refine ⟨?_, ?_, ?_, ?_, ?_⟩
  · simp [get_top_researchers]
  · simp [analyze_paper, htext]
  · simp [send_mail, sendMailWith]
  · simp [send_mail, sendMailWith]
  · obtain ⟨r, rs, rfl⟩ := List.exists_cons_of_ne_nil hrecs
    by_cases hr : canSend r
    · simp [send_mail, sendMailWith, sendLoop, hr]
    · simp [send_mail, sendMailWith, sendLoop, hr]

/-- Witness for C4's theorem at concrete inputs. -/
theorem claim_c4_credential_handling_witness :
    get_top_researchers none [] 3 =
      ("ERROR: SERPAPI_KEY not found in environment variables.", false)
    ∧ analyze_paper "paper text" none "Topic" =
        ("Error: GEMINI_API_KEY missing.", false)
    ∧ (send_mail none "pw" "body" "subj" (some ["a@b.co"])
        (fun _ => true)).promptedForPass = true
    ∧ (send_mail none "pw" "body" "subj" (some ["a@b.co"])
        (fun _ => true)).usedPass = "pw"
    ∧ (send_mail none "pw" "body" "subj" (some ["a@b.co"])
        (fun _ => true)).attempted ≠ [] :=
  claim_c4_credential_handling [] 3 "paper text" "Topic" "pw" "body" "subj"
    ["a@b.co"] (fun _ => true) (by decide) (by decide)

/-- C4 counterexample: with the mail credential absent, `send_mail` does not
return a descriptive error — it uses the interactively prompted password,
attempts the transport call, and reports success.  So not every
credential-dependent operation fails fast. -/
theorem claim_c4_counterexample :
    (send_mail none "hunter2" "body" "subj" (some ["a@b.co"])
        (fun _ => true)).promptedForPass = true
    ∧ (send_mail none "hunter2" "body" "subj" (some ["a@b.co"])
        (fun _ => true)).attempted = ["a@b.co"]
    ∧ (send_mail none "hunter2" "body" "subj" (some ["a@b.co"])
        (fun _ => true)).retval = some "Emails sent successfully to: a@b.co" :=
  ⟨by decide, by decide, by decide⟩
